import Mathlib

/-!
Verification of the MindMeld interpreter (`src/main.cpp`), a two-cursor
BrainFuck derivative.  The embedding below translates the C++ source:

* `source_sanitize` / `switch_sanitize` — the two sanitizers (lines 149-206);
* `tokenize` — conversion of a sanitized pair stream into `Instr` tokens with
  precomputed jump distances (lines 210-267);
* `execute` — the direct interpreter over the character stream, with runtime
  bracket scanning (lines 270-356);
* `execute_tokens` — the tokenized interpreter (lines 359-430).

Machine integers are modelled as `Nat` with explicit `% 256` where the C++
`uint8_t` arithmetic wraps; undefined behaviour of the C++ (reads outside the
30,000-cell tape, scanning past the ends of the program, popping an empty
jump stack, the `assert(false)` branches) is modelled as `Option.none`.
Console I/O is modelled by an input list of bytes and an output list of bytes
carried in the interpreter state.  Programs are `List Char` (the C++ works on
`std::string` / `const char *`).
-/

/-- `InstrType` from main.cpp: the eight BrainFuck operation kinds. -/
inductive InstrType where
  | PLUS
  | MINUS
  | LEFT
  | RIGHT
  | INPUT
  | OUTPUT
  | LOOP_OPEN
  | LOOP_CLOSE
deriving DecidableEq

/-- `Ptr` from main.cpp: designates which data pointer an operation affects. -/
inductive Ptr where
  | A
  | B
deriving DecidableEq

/-- `Instr` from main.cpp: an (operation, pointer) pair with a jump distance
(defaulting to 0) used by loop instructions. -/
structure Instr where
  type : InstrType
  ptr : Ptr
  jump : Nat
deriving DecidableEq

/-- The selector characters recognised by both sanitizers (`case 'A': case 'B'`). -/
def isSel (c : Char) : Bool := c = 'A' || c = 'B'

/-- The eight operation characters recognised by the sanitizers
(`case '<' ... case ']'`). -/
def isOp (c : Char) : Bool :=
  c = '<' || c = '>' || c = '-' || c = '+' || c = '.' || c = ',' || c = '[' || c = ']'

/-- Loop body of `source_sanitize` (main.cpp lines 149-178): the boolean is the
`lastWasAB` flag; selector characters are dropped when the previously emitted
character was a selector, operation characters are emitted and reset the flag,
all other characters are discarded. -/
def sanitizeAux : List Char → Bool → List Char
  | [], _ => []
  | c :: rest, lastWasAB =>
    if isSel c then
      if lastWasAB then sanitizeAux rest true
      else c :: sanitizeAux rest true
    else if isOp c then c :: sanitizeAux rest false
    else sanitizeAux rest lastWasAB

/-- `source_sanitize` from main.cpp: paired-mode sanitization
(`lastWasAB` starts out false). -/
def source_sanitize (s : List Char) : List Char := sanitizeAux s false

/-- Loop body of `switch_sanitize` (main.cpp lines 181-206): the character is
the current `ptr_specifier`; a standalone selector updates it, an operation
character is emitted followed by the current specifier, everything else is
discarded. -/
def switchAux : List Char → Char → List Char
  | [], _ => []
  | c :: rest, spec =>
    if isSel c then switchAux rest c
    else if isOp c then c :: spec :: switchAux rest spec
    else switchAux rest spec

/-- `switch_sanitize` from main.cpp: switch-mode sanitization
(the `ptr_specifier` starts out as 'A'). -/
def switch_sanitize (s : List Char) : List Char := switchAux s 'A'

/-- The first `switch` of `tokenize` (main.cpp lines 217-243): maps an
operation character to its `InstrType`; a character outside the alphabet
leaves `ins.type` uninitialized in the C++ (undefined behaviour), modelled
as `none`. -/
def charToType (c : Char) : Option InstrType :=
  if c = '<' then some InstrType.LEFT
  else if c = '>' then some InstrType.RIGHT
  else if c = '-' then some InstrType.MINUS
  else if c = '+' then some InstrType.PLUS
  else if c = '.' then some InstrType.OUTPUT
  else if c = ',' then some InstrType.INPUT
  else if c = '[' then some InstrType.LOOP_OPEN
  else if c = ']' then some InstrType.LOOP_CLOSE
  else none

/-- The second `switch` of `tokenize` (main.cpp lines 244-252): maps a selector
character to a `Ptr`; anything else leaves `ins.ptr` uninitialized (undefined
behaviour), modelled as `none`. -/
def charToPtr (c : Char) : Option Ptr :=
  if c = 'A' then some Ptr.A
  else if c = 'B' then some Ptr.B
  else none

/-- `out.at(i).jump = d` / `out.back().jump = d` from `tokenize`: replace the
jump field of the element at index `i`, leaving the rest of the list alone. -/
def modifyJump : List Instr → Nat → Nat → List Instr
  | [], _, _ => []
  | x :: xs, 0, d => { x with jump := d } :: xs
  | x :: xs, n + 1, d => x :: modifyJump xs n d

/-- The loop of `tokenize` (main.cpp lines 214-266).  `idx` is `char_pos / 2`,
`stack` is the `jump_stack` (head = top), `out` is the output vector.  A
loop-open pushes its instruction index; a loop-close pops the matching open
index `pos`, computes `jump_distance = idx - pos` and records it on both the
just-appended close token (`out.back()`) and the open token (`out.at(pos)`).
An odd-length source violates the `assert`, an empty-stack pop and an invalid
character are undefined behaviour: all modelled as `none`.  The final stack is
returned alongside the tokens (the C++ simply drops it). -/
def tokenizeAux : List Char → Nat → List Nat → List Instr →
    Option (List Instr × List Nat)
  | [], _, stack, out => some (out, stack)
  | [_], _, _, _ => none
  | c1 :: c2 :: rest, idx, stack, out =>
    match charToType c1, charToPtr c2 with
    | some t, some pr =>
      let out1 := out ++ [⟨t, pr, 0⟩]
      if t = InstrType.LOOP_OPEN then
        tokenizeAux rest (idx + 1) (idx :: stack) out1
      else if t = InstrType.LOOP_CLOSE then
        match stack with
        | [] => none
        | pos :: stack2 =>
          let d := idx - pos
          tokenizeAux rest (idx + 1) stack2 (modifyJump (modifyJump out1 idx d) pos d)
      else tokenizeAux rest (idx + 1) stack out1
    | _, _ => none

/-- `tokenize` from main.cpp: runs the loop from index 0 with an empty stack
and empty output and keeps the token vector. -/
def tokenize (s : List Char) : Option (List Instr) :=
  (tokenizeAux s 0 [] []).map Prod.fst

/-- Reference bracket matcher, same stack discipline as `tokenize` but
accumulating the matched (open index, close index) pairs instead of tokens.
This is the formal meaning of "matching" bracket pair for a properly nested
stream: a close matches the most recent unmatched open. -/
def pairsAux : List Char → Nat → List Nat → List (Nat × Nat) →
    Option (List (Nat × Nat) × List Nat)
  | [], _, stack, acc => some (acc, stack)
  | [_], _, _, _ => none
  | c1 :: c2 :: rest, idx, stack, acc =>
    match charToType c1, charToPtr c2 with
    | some t, some _ =>
      if t = InstrType.LOOP_OPEN then
        pairsAux rest (idx + 1) (idx :: stack) acc
      else if t = InstrType.LOOP_CLOSE then
        match stack with
        | [] => none
        | pos :: stack2 => pairsAux rest (idx + 1) stack2 (acc ++ [(pos, idx)])
      else pairsAux rest (idx + 1) stack acc
    | _, _ => none

/-- Forward bracket scan of the direct interpreter (main.cpp lines 324-333):
`while(level){ ip += 2; if '[' level++; else if ']' level--; }`, written with
an explicit step bound so that the recursion is structural.  Returns the
character index the scan stops at (the matching close bracket).  Running past
the end of the program (unbalanced input, undefined behaviour in the C++) is
`none`. -/
def scanFwdF (s : List Char) : Nat → Nat → Nat → Option Nat
  | 0, _, _ => none
  | fuel + 1, ip, level =>
    if ip + 2 < s.length then
      match s.get? (ip + 2) with
      | none => none
      | some c =>
        let level2 := if c = '[' then level + 1 else if c = ']' then level - 1 else level
        if level2 = 0 then some (ip + 2) else scanFwdF s fuel (ip + 2) level2
    else none

/-- The forward scan proper.  A step bound of `s.length` never runs out before
the end-of-program check does (each step moves two characters forward), so
this is exactly the C++ loop. -/
def scanFwd (s : List Char) (ip level : Nat) : Option Nat :=
  scanFwdF s s.length ip level

/-- Backward bracket scan of the direct interpreter (main.cpp lines 338-347):
`while(level){ ip -= 2; if '[' level--; else if ']' level++; }`, written with
an explicit step bound so that the recursion is structural.  Returns the
character index the scan stops at (the matching open bracket).  Running off
the front of the program (unbalanced input, undefined behaviour in the C++)
is `none`. -/
def scanBackF (s : List Char) : Nat → Nat → Nat → Option Nat
  | 0, _, _ => none
  | fuel + 1, ip, level =>
    if 2 ≤ ip then
      match s.get? (ip - 2) with
      | none => none
      | some c =>
        let level2 := if c = '[' then level - 1 else if c = ']' then level + 1 else level
        if level2 = 0 then some (ip - 2) else scanBackF s fuel (ip - 2) level2
    else none

/-- The backward scan proper.  A step bound of `ip` never runs out before the
front-of-program check does (each step moves two characters back), so this is
exactly the C++ loop. -/
def scanBack (s : List Char) (ip level : Nat) : Option Nat :=
  scanBackF s ip ip level

/-- Number of cells of the data tape
(`new uint8_t[30000]`, main.cpp line 279). -/
def TAPE_SIZE : Nat := 30000

/-- Interpreter state shared by both execution strategies: the instruction
cursor (`ip`, a character index for `execute` and a token index for
`execute_tokens`), the tape contents, the two data cursors as integer offsets
into the tape (`data_pointer_A/B`), the remaining console input and the output
emitted so far. -/
structure MState where
  ip : Nat
  tape : Int → Nat
  ptrA : Int
  ptrB : Int
  inp : List Nat
  out : List Nat

/-- The initial interpreter state: zeroed tape, both data cursors at cell 0
(main.cpp lines 278-282 and 366-369). -/
def initState (inp : List Nat) : MState :=
  { ip := 0, tape := fun _ => 0, ptrA := 0, ptrB := 0, inp := inp, out := [] }

/-- Reading `**data_ptr`: defined only inside the 30,000-cell tape; an
out-of-range dereference is undefined behaviour in the C++. -/
def readCell (t : Int → Nat) (p : Int) : Option Nat :=
  if 0 ≤ p ∧ p < (TAPE_SIZE : Int) then some (t p) else none

/-- Writing `**data_ptr = v`: defined only inside the tape. -/
def writeCell (t : Int → Nat) (p : Int) (v : Nat) : Option (Int → Nat) :=
  if 0 ≤ p ∧ p < (TAPE_SIZE : Int) then some (fun q => if q = p then v else t q)
  else none

/-- The selector dispatch of `execute` (main.cpp lines 288-298): `'A'` and
`'B'` select the corresponding data pointer, anything else hits
`assert(false)`. -/
def selPtr (st : MState) (sel : Char) : Option Int :=
  if sel = 'A' then some st.ptrA
  else if sel = 'B' then some st.ptrB
  else none

/-- Writing back the selected data pointer (the C++ mutates it through
`*data_ptr`). -/
def setSel (st : MState) (sel : Char) (p : Int) : MState :=
  if sel = 'A' then { st with ptrA := p } else { st with ptrB := p }

/-- One iteration of the `while` loop of `execute` (main.cpp lines 285-355),
including the unconditional `instruction_pointer += 2` at the end.  On a taken
loop-close branch the C++ stops the backward scan on the matching `[`, steps
back one more instruction and then the `+= 2` advances onto the `[` again, so
the net new position is exactly the scan's landing index. -/
def execStep (s : List Char) (st : MState) : Option MState :=
  match s.get? st.ip, s.get? (st.ip + 1) with
  | some op, some sel =>
    match selPtr st sel with
    | none => none
    | some p =>
      if op = '+' then
        match readCell st.tape p with
        | none => none
        | some v =>
          match writeCell st.tape p ((v + 1) % 256) with
          | none => none
          | some t => some { st with tape := t, ip := st.ip + 2 }
      else if op = '-' then
        match readCell st.tape p with
        | none => none
        | some v =>
          match writeCell st.tape p ((v + 255) % 256) with
          | none => none
          | some t => some { st with tape := t, ip := st.ip + 2 }
      else if op = '>' then
        some { setSel st sel (p + 1) with ip := st.ip + 2 }
      else if op = '<' then
        some { setSel st sel (p - 1) with ip := st.ip + 2 }
      else if op = '.' then
        match readCell st.tape p with
        | none => none
        | some v => some { st with out := st.out ++ [v], ip := st.ip + 2 }
      else if op = ',' then
        match st.inp with
        | [] => none
        | b :: rest =>
          match writeCell st.tape p (b % 256) with
          | none => none
          | some t =>
            some { st with tape := t, inp := rest, out := st.out ++ [b % 256],
                           ip := st.ip + 2 }
      else if op = '[' then
        match readCell st.tape p with
        | none => none
        | some v =>
          if v = 0 then
            match scanFwd s st.ip 1 with
            | none => none
            | some q => some { st with ip := q + 2 }
          else some { st with ip := st.ip + 2 }
      else if op = ']' then
        match readCell st.tape p with
        | none => none
        | some v =>
          if v ≠ 0 then
            match scanBack s st.ip 1 with
            | none => none
            | some q => some { st with ip := q }
          else some { st with ip := st.ip + 2 }
      else none
  | _, _ => none

/-- The `while(*instruction_pointer)` loop of `execute`, with fuel: the loop
runs until the cursor reaches the terminating NUL at the end of the
instruction string.  Exhausted fuel is `none`. -/
def execRun (s : List Char) : Nat → MState → Option MState
  | 0, _ => none
  | fuel + 1, st =>
    if h : st.ip < s.length then
      if s.get ⟨st.ip, h⟩ = Char.ofNat 0 then some st
      else
        match execStep s st with
        | none => none
        | some st2 => execRun s fuel st2
    else some st

/-- `execute` from main.cpp: run the direct interpreter from the initial state
on the given console input, with the given amount of fuel. -/
def execute (s : List Char) (inp : List Nat) (fuel : Nat) : Option MState :=
  execRun s fuel (initState inp)

/-- The pointer dispatch of `execute_tokens` (main.cpp lines 378-388). -/
def selPtrTok (st : MState) (pr : Ptr) : Int :=
  match pr with
  | Ptr.A => st.ptrA
  | Ptr.B => st.ptrB

/-- Writing back the selected data pointer in `execute_tokens`. -/
def setSelTok (st : MState) (pr : Ptr) (p : Int) : MState :=
  match pr with
  | Ptr.A => { st with ptrA := p }
  | Ptr.B => { st with ptrB := p }

/-- One iteration of the `for` loop of `execute_tokens` (main.cpp lines
372-429), including the `instruction_pointer++` of the loop header.  On a
taken loop-open branch the iterator moves forward by `jump` and then the `++`
adds one more; on a taken loop-close branch it moves back by `jump` and the
`++` adds one, so the next executed token is the one after the matching open.
The `assert(instruction_pointer->jump != 0)` on taken branches and a backward
jump before the beginning of the vector are modelled as `none`. -/
def execTokStep (prog : List Instr) (st : MState) : Option MState :=
  match prog.get? st.ip with
  | none => none
  | some ins =>
    let p := selPtrTok st ins.ptr
    match ins.type with
    | InstrType.PLUS =>
      match readCell st.tape p with
      | none => none
      | some v =>
        match writeCell st.tape p ((v + 1) % 256) with
        | none => none
        | some t => some { st with tape := t, ip := st.ip + 1 }
    | InstrType.MINUS =>
      match readCell st.tape p with
      | none => none
      | some v =>
        match writeCell st.tape p ((v + 255) % 256) with
        | none => none
        | some t => some { st with tape := t, ip := st.ip + 1 }
    | InstrType.RIGHT =>
      some { setSelTok st ins.ptr (p + 1) with ip := st.ip + 1 }
    | InstrType.LEFT =>
      some { setSelTok st ins.ptr (p - 1) with ip := st.ip + 1 }
    | InstrType.OUTPUT =>
      match readCell st.tape p with
      | none => none
      | some v => some { st with out := st.out ++ [v], ip := st.ip + 1 }
    | InstrType.INPUT =>
      match st.inp with
      | [] => none
      | b :: rest =>
        match writeCell st.tape p (b % 256) with
        | none => none
        | some t =>
          some { st with tape := t, inp := rest, out := st.out ++ [b % 256],
                         ip := st.ip + 1 }
    | InstrType.LOOP_OPEN =>
      match readCell st.tape p with
      | none => none
      | some v =>
        if v = 0 then
          if ins.jump = 0 then none
          else some { st with ip := st.ip + ins.jump + 1 }
        else some { st with ip := st.ip + 1 }
    | InstrType.LOOP_CLOSE =>
      match readCell st.tape p with
      | none => none
      | some v =>
        if v ≠ 0 then
          if ins.jump = 0 then none
          else if ins.jump ≤ st.ip then some { st with ip := st.ip - ins.jump + 1 }
          else none
        else some { st with ip := st.ip + 1 }

/-- The `for` loop of `execute_tokens`, with fuel: the loop runs until the
iterator equals `instructions.end()`. -/
def execTokRun (prog : List Instr) : Nat → MState → Option MState
  | 0, _ => none
  | fuel + 1, st =>
    if st.ip = prog.length then some st
    else
      match execTokStep prog st with
      | none => none
      | some st2 => execTokRun prog fuel st2

/-- `execute_tokens` from main.cpp: run the tokenized interpreter from the
initial state on the given console input, with the given amount of fuel. -/
def execute_tokens (prog : List Instr) (inp : List Nat) (fuel : Nat) :
    Option MState :=
  execTokRun prog fuel (initState inp)

/-!  ## Sanitizer properties  -/

/-- A well-formed instruction-pair stream: alternating (operation, selector)
characters, even length.  This is the canonical form §4.1 of the spec says
sanitization produces and the tokenizer consumes. -/
inductive PairStream : List Char → Prop where
  | nil : PairStream []
  | cons {c d : Char} {rest : List Char} (hc : isOp c = true) (hd : isSel d = true)
      (h : PairStream rest) : PairStream (c :: d :: rest)

/-- Monitor for `source_sanitize`'s output shape: every character is an
operation or a selector, and a selector never immediately follows a selector.
The boolean tracks whether the previously seen character was a selector. -/
def cleanF : List Char → Bool → Bool
  | [], _ => true
  | c :: rest, lastSel =>
    if isSel c then !lastSel && cleanF rest true
    else isOp c && cleanF rest false

/-- The postcondition §4.1 states for both sanitizers: even length, operation
symbols at even indices, selector symbols at odd indices. -/
def Alternating (l : List Char) : Prop :=
  l.length % 2 = 0 ∧
  ∀ i c, l.get? i = some c →
    (i % 2 = 0 → isOp c = true) ∧ (i % 2 = 1 → isSel c = true)

/-- The token at index `p` is a loop-open. -/
def openAt (out : List Instr) (p : Nat) : Prop :=
  ∃ ins, out.get? p = some ins ∧ ins.type = InstrType.LOOP_OPEN

/-- The token at index `p` is a loop-close. -/
def closeAt (out : List Instr) (p : Nat) : Prop :=
  ∃ ins, out.get? p = some ins ∧ ins.type = InstrType.LOOP_CLOSE

/-- The token at index `p` is a loop-open carrying jump distance `d`. -/
def openJ (out : List Instr) (p d : Nat) : Prop :=
  ∃ ins, out.get? p = some ins ∧ ins.type = InstrType.LOOP_OPEN ∧ ins.jump = d

/-- The token at index `p` is a loop-close carrying jump distance `d`. -/
def closeJ (out : List Instr) (p d : Nat) : Prop :=
  ∃ ins, out.get? p = some ins ∧ ins.type = InstrType.LOOP_CLOSE ∧ ins.jump = d

/-- Invariant tying a mid-run state of `tokenizeAux` to the same-point state of
the reference matcher `pairsAux`: the output has one token per consumed pair;
stack entries are indices of still-unmatched open tokens, strictly decreasing
from the top; every already-matched pair `(i, j)` has distance `j - i`
recorded on both of its tokens; stack entries are disjoint from matched
positions; and every open (resp. close) token is either still on the stack or
already matched. -/
def TokInv (idx : Nat) (stack : List Nat) (out : List Instr)
    (acc : List (Nat × Nat)) : Prop :=
  out.length = idx ∧
  (∀ p ∈ stack, p < idx ∧ openAt out p) ∧
  List.Pairwise (fun a b => b < a) stack ∧
  (∀ pr ∈ acc, pr.1 < pr.2 ∧ pr.2 < idx ∧
    openJ out pr.1 (pr.2 - pr.1) ∧ closeJ out pr.2 (pr.2 - pr.1)) ∧
  (∀ p ∈ stack, ∀ pr ∈ acc, p ≠ pr.1 ∧ p ≠ pr.2) ∧
  (∀ p, openAt out p → p ∈ stack ∨ ∃ j, (p, j) ∈ acc) ∧
  (∀ p, closeAt out p → ∃ i, (i, p) ∈ acc)

lemma isSel_char (c : Char) (h : isSel c = true) : c = 'A' ∨ c = 'B' := by
  simpa [isSel, Bool.or_eq_true, decide_eq_true_eq] using h

lemma isOp_isSel_false (c : Char) (h : isOp c = true) : isSel c = false := by
  cases hs : isSel c with
  | false => rfl
  | true =>
    rcases isSel_char c hs with h2 | h2 <;> subst h2 <;> exact absurd h (by decide)

/-- On a well-formed pair stream, paired-mode sanitization is the identity,
whatever the incoming `lastWasAB` flag. -/
lemma sanitizeAux_pairStream_id {l : List Char} (h : PairStream l) :
    ∀ b, sanitizeAux l b = l := by
  induction h with
  | nil => intro b; rfl
  | @cons c d rest hc hd hp ih =>
    intro b
    have hcsel : isSel c = false := isOp_isSel_false c hc
    have hdop : isOp d = false := by
      cases ho : isOp d with
      | false => rfl
      | true => rw [isOp_isSel_false d ho] at hd; exact absurd hd (by decide)
    simp [sanitizeAux, hcsel, hc, hd, ih]

/-- `source_sanitize` always emits a `cleanF`-clean stream: only instruction
characters, never two adjacent selectors. -/
lemma cleanF_sanitizeAux : ∀ (l : List Char) (b : Bool),
    cleanF (sanitizeAux l b) b = true := by
  intro l
  induction l with
  | nil => intro b; rfl
  | cons c rest ih =>
    intro b
    cases hs : isSel c with
    | true =>
      cases b with
      | true => simpa [sanitizeAux, hs] using ih true
      | false => simpa [sanitizeAux, cleanF, hs] using ih true
    | false =>
      cases ho : isOp c with
      | true => simpa [sanitizeAux, cleanF, hs, ho] using ih false
      | false => simpa [sanitizeAux, hs, ho] using ih b

/-- A `cleanF`-clean stream is a fixed point of paired-mode sanitization. -/
lemma cleanF_sanitizeAux_id : ∀ (l : List Char) (b : Bool),
    cleanF l b = true → sanitizeAux l b = l := by
  intro l
  induction l with
  | nil => intro b _; rfl
  | cons c rest ih =>
    intro b h
    cases hs : isSel c with
    | true =>
      rw [cleanF, hs] at h
      simp only [if_true] at h
      rcases Bool.and_eq_true_iff.mp h with ⟨hb, hrest⟩
      have hb2 : b = false := by
        cases b with
        | false => rfl
        | true => exact absurd hb (by decide)
      subst hb2
      simp [sanitizeAux, hs, ih true hrest]
    | false =>
      rw [cleanF, hs] at h
      simp only [Bool.false_eq_true, if_false] at h
      rcases Bool.and_eq_true_iff.mp h with ⟨ho, hrest⟩
      simp [sanitizeAux, hs, ho, ih false hrest]

/-- In a `cleanF`-clean stream, no selector character directly follows a
selector character. -/
lemma cleanF_no_adj : ∀ (l : List Char) (b : Bool), cleanF l b = true →
    ∀ i c d, l.get? i = some c → l.get? (i + 1) = some d →
      isSel c = true → isSel d = false := by
  intro l
  induction l with
  | nil => intro b _ i c d hc; exact absurd hc (by simp)
  | cons e rest ih =>
    intro b h i c d hc hd hcsel
    cases hs : isSel e with
    | true =>
      rw [cleanF, hs] at h
      simp only [if_true] at h
      rcases Bool.and_eq_true_iff.mp h with ⟨_, hrest⟩
      cases i with
      | zero =>
        have hd0 : rest.get? 0 = some d := by simpa using hd
        cases rest with
        | nil => exact absurd hd0 (by simp)
        | cons f rest2 =>
          obtain rfl : f = d := by simpa using hd0
          cases hf : isSel f with
          | false => rfl
          | true => rw [cleanF, hf] at hrest; simp at hrest
      | succ j =>
        exact ih true hrest j c d (by simpa using hc) (by simpa using hd) hcsel
    | false =>
      rw [cleanF, hs] at h
      simp only [Bool.false_eq_true, if_false] at h
      rcases Bool.and_eq_true_iff.mp h with ⟨_, hrest⟩
      cases i with
      | zero =>
        obtain rfl : e = c := by simpa using hc
        rw [hs] at hcsel; exact absurd hcsel (by decide)
      | succ j =>
        exact ih false hrest j c d (by simpa using hc) (by simpa using hd) hcsel

/-- Switch-mode sanitization always produces a well-formed pair stream, for
any current selector in `{A, B}`. -/
lemma switchAux_pairStream : ∀ (l : List Char) (spec : Char),
    isSel spec = true → PairStream (switchAux l spec) := by
  intro l
  induction l with
  | nil => intro spec _; exact PairStream.nil
  | cons c rest ih =>
    intro spec hspec
    cases hs : isSel c with
    | true => simpa [switchAux, hs] using ih c hs
    | false =>
      cases ho : isOp c with
      | true =>
        simp only [switchAux, hs, ho, Bool.false_eq_true, if_false, if_true]
        exact PairStream.cons ho hspec (ih spec hspec)
      | false => simpa [switchAux, hs, ho] using ih spec hspec

/-- A well-formed pair stream satisfies the indexed alternation postcondition. -/
lemma pairStream_alternating {l : List Char} (h : PairStream l) : Alternating l := by
  induction h with
  | nil =>
    exact ⟨rfl, fun i c hc => absurd hc (by simp)⟩
  | @cons c d rest hc hd hp ih =>
    rcases ih with ⟨hlen, hidx⟩
    constructor
    · simp only [List.length_cons]; omega
    · intro i e he
      match i with
      | 0 =>
        obtain rfl : c = e := by simpa using he
        exact ⟨fun _ => hc, fun h1 => by simp at h1⟩
      | 1 =>
        obtain rfl : d = e := by simpa using he
        exact ⟨fun h0 => by simp at h0, fun _ => hd⟩
      | (j + 2) =>
        have he2 : rest.get? j = some e := by simpa using he
        have hmod : (j + 2) % 2 = j % 2 := by omega
        rcases hidx j e he2 with ⟨h0, h1⟩
        exact ⟨fun hh => h0 (by omega), fun hh => h1 (by omega)⟩

/-- **C2, counterexample.**  The claimed postcondition does not hold of
`source_sanitize` for every input string: the input "+" sanitizes to "+",
whose length is odd. -/
theorem sanitize_postcondition_cex : ¬ Alternating (source_sanitize ['+']) :=
  fun h => absurd h.1 (by decide)

/-- **C2, amended.**  For every input string, the output of `switch_sanitize`
has even length with operation symbols at even indices and selector symbols at
odd indices; the output of `source_sanitize` satisfies the same postcondition
provided its input is itself a well-formed (operation, selector) pair
stream — on such inputs paired-mode sanitization is the identity. -/
theorem sanitize_postcondition_amended :
    (∀ l, Alternating (switch_sanitize l)) ∧
    (∀ l, PairStream l → Alternating (source_sanitize l)) := by
  constructor
  · intro l
    exact pairStream_alternating (switchAux_pairStream l 'A' (by decide))
  · intro l h
    have hid : source_sanitize l = l := sanitizeAux_pairStream_id h false
    rw [hid]
    exact pairStream_alternating h

/-- Witness for the amended C2 at the concrete input "+A". -/
theorem sanitize_postcondition_amended_witness :
    Alternating (source_sanitize ['+', 'A']) :=
  sanitize_postcondition_amended.2 ['+', 'A']
    (PairStream.cons (by decide) (by decide) PairStream.nil)

/-- **C3, counterexample.**  The input "AB+" does not sanitize to "B+": the
first selector is kept and the following one is dropped. -/
theorem sanitize_collapse_cex : source_sanitize ['A', 'B', '+'] ≠ ['B', '+'] := by
  decide

/-- **C3, amended.**  Paired-mode sanitization drops a selector character
whenever the immediately preceding emitted character was a selector (so the
output never contains two adjacent selector characters); in particular, for
the input "AB+" it returns "A+" (not "B+"). -/
theorem sanitize_collapse_amended :
    (∀ s i c d, (source_sanitize s).get? i = some c →
      (source_sanitize s).get? (i + 1) = some d →
      isSel c = true → isSel d = false) ∧
    source_sanitize ['A', 'B', '+'] = ['A', '+'] := by
  constructor
  · intro s i c d hc hd hcsel
    exact cleanF_no_adj (source_sanitize s) false (cleanF_sanitizeAux s false)
      i c d hc hd hcsel
  · decide

/-- Witness for the amended C3 at the concrete sanitized stream "A+". -/
theorem sanitize_collapse_amended_witness : isSel '+' = false :=
  sanitize_collapse_amended.1 ['A', '+'] 0 'A' '+' (by decide) (by decide) (by decide)

/-- **C9.**  Paired-mode sanitization is idempotent: sanitizing twice yields
the same result as sanitizing once. -/
theorem source_sanitize_idempotent :
    ∀ s, source_sanitize (source_sanitize s) = source_sanitize s :=
  fun s => cleanF_sanitizeAux_id (sanitizeAux s false) false (cleanF_sanitizeAux s false)

/-- **C10.**  Switch-mode output is a fixed point of the paired-mode
sanitizer: `source_sanitize` passes any `switch_sanitize` output through
unchanged. -/
theorem switch_output_fixed_point :
    ∀ s, source_sanitize (switch_sanitize s) = switch_sanitize s :=
  fun s => sanitizeAux_pairStream_id (switchAux_pairStream s 'A' (by decide)) false

/-!  ## Interpreter properties  -/

lemma readCell_bounds {t : Int → Nat} {p : Int} {v : Nat}
    (h : readCell t p = some v) : 0 ≤ p ∧ p < (TAPE_SIZE : Int) := by
  by_cases hb : 0 ≤ p ∧ p < (TAPE_SIZE : Int)
  · exact hb
  · rw [readCell, if_neg hb] at h
    exact absurd h (by simp)

lemma writeCell_eq {t : Int → Nat} {p : Int} (v : Nat)
    (hb : 0 ≤ p ∧ p < (TAPE_SIZE : Int)) :
    writeCell t p v = some (fun q => if q = p then v else t q) := by
  rw [writeCell, if_pos hb]

/-- When the backward bracket scan stops (with a positive incoming nesting
level), it stops on a `[` character: the level can only reach 0 by the
decrement performed on a loop-open. -/
lemma scanBackF_lands_open (s : List Char) :
    ∀ (fuel ip level : Nat), 1 ≤ level →
      ∀ q, scanBackF s fuel ip level = some q → s.get? q = some '[' := by
  intro fuel
  induction fuel with
  | zero =>
    intro ip level _ q h
    exact absurd h (by simp [scanBackF])
  | succ fuel ih =>
    intro ip level hlev q h
    rw [scanBackF] at h
    by_cases h2 : 2 ≤ ip
    · rw [if_pos h2] at h
      cases hget : s.get? (ip - 2) with
      | none => rw [hget] at h; exact absurd h (by simp)
      | some c =>
        rw [hget] at h
        simp only [] at h
        by_cases hcop : c = '['
        · subst hcop
          rw [if_pos rfl] at h
          by_cases hz : level - 1 = 0
          · rw [if_pos hz] at h
            obtain rfl : ip - 2 = q := by simpa using h
            exact hget
          · rw [if_neg hz] at h
            exact ih (ip - 2) (level - 1) (by omega) q h
        · rw [if_neg hcop] at h
          by_cases hcc : c = ']'
          · subst hcc
            rw [if_pos rfl, if_neg (by omega)] at h
            exact ih (ip - 2) (level + 1) (by omega) q h
          · rw [if_neg hcc, if_neg (by omega)] at h
            exact ih (ip - 2) level hlev q h
    · rw [if_neg h2] at h
      exact absurd h (by simp)

lemma scanBack_lands_open (s : List Char) (ip level : Nat) (h : 1 ≤ level)
    (q : Nat) (hs : scanBack s ip level = some q) : s.get? q = some '[' :=
  scanBackF_lands_open s ip ip level h q hs

/-- **C7.**  In both interpreters, Increment applied to a cell holding 255
yields 0, and Decrement applied to a cell holding 0 yields 255 (unsigned
8-bit modulo-256 arithmetic on tape cells). -/
theorem cell_wraparound :
    (∀ (s : List Char) (st : MState) (sel : Char) (p : Int),
      s.get? st.ip = some '+' → s.get? (st.ip + 1) = some sel →
      selPtr st sel = some p → readCell st.tape p = some 255 →
      ∃ st2, execStep s st = some st2 ∧ st2.tape p = 0) ∧
    (∀ (s : List Char) (st : MState) (sel : Char) (p : Int),
      s.get? st.ip = some '-' → s.get? (st.ip + 1) = some sel →
      selPtr st sel = some p → readCell st.tape p = some 0 →
      ∃ st2, execStep s st = some st2 ∧ st2.tape p = 255) ∧
    (∀ (prog : List Instr) (st : MState) (ins : Instr),
      prog.get? st.ip = some ins → ins.type = InstrType.PLUS →
      readCell st.tape (selPtrTok st ins.ptr) = some 255 →
      ∃ st2, execTokStep prog st = some st2 ∧ st2.tape (selPtrTok st ins.ptr) = 0) ∧
    (∀ (prog : List Instr) (st : MState) (ins : Instr),
      prog.get? st.ip = some ins → ins.type = InstrType.MINUS →
      readCell st.tape (selPtrTok st ins.ptr) = some 0 →
      ∃ st2, execTokStep prog st = some st2 ∧ st2.tape (selPtrTok st ins.ptr) = 255) := by
  refine ⟨?_, ?_, ?_, ?_⟩
  · intro s st sel p hop hsel hp hread
    have hb := readCell_bounds hread
    refine ⟨{ st with
                ip := st.ip + 2
                tape := fun q => if q = p then (255 + 1) % 256 else st.tape q },
      ?_, by simp⟩
    unfold execStep
    rw [hop, hsel]
    simp [hp, hread, writeCell_eq _ hb]
  · intro s st sel p hop hsel hp hread
    have hb := readCell_bounds hread
    refine ⟨{ st with
                ip := st.ip + 2
                tape := fun q => if q = p then (0 + 255) % 256 else st.tape q },
      ?_, by simp⟩
    unfold execStep
    rw [hop, hsel]
    simp [hp, hread, writeCell_eq _ hb]
  · intro prog st ins hins htype hread
    have hb := readCell_bounds hread
    refine ⟨{ st with
                ip := st.ip + 1
                tape := fun q =>
                  if q = selPtrTok st ins.ptr then (255 + 1) % 256 else st.tape q },
      ?_, by simp⟩
    unfold execTokStep
    rw [hins]
    simp [htype, hread, writeCell_eq _ hb]
  · intro prog st ins hins htype hread
    have hb := readCell_bounds hread
    refine ⟨{ st with
                ip := st.ip + 1
                tape := fun q =>
                  if q = selPtrTok st ins.ptr then (0 + 255) % 256 else st.tape q },
      ?_, by simp⟩
    unfold execTokStep
    rw [hins]
    simp [htype, hread, writeCell_eq _ hb]

/-- Witness for C7: concrete one-instruction programs, cell 0 holding 255
(for `+`) or 0 (for `-`), in each interpreter. -/
theorem cell_wraparound_witness :
    (∃ st2, execStep ['+', 'A']
        { ip := 0, tape := fun q => if q = 0 then 255 else 0, ptrA := 0, ptrB := 0,
          inp := [], out := [] } = some st2 ∧ st2.tape 0 = 0) ∧
    (∃ st2, execStep ['-', 'B']
        { ip := 0, tape := fun _ => 0, ptrA := 0, ptrB := 0,
          inp := [], out := [] } = some st2 ∧ st2.tape 0 = 255) ∧
    (∃ st2, execTokStep [⟨InstrType.PLUS, Ptr.A, 0⟩]
        { ip := 0, tape := fun q => if q = 0 then 255 else 0, ptrA := 0, ptrB := 0,
          inp := [], out := [] } = some st2 ∧
        st2.tape (selPtrTok
          { ip := 0, tape := fun q => if q = 0 then 255 else 0, ptrA := 0, ptrB := 0,
            inp := [], out := [] } Ptr.A) = 0) ∧
    (∃ st2, execTokStep [⟨InstrType.MINUS, Ptr.B, 0⟩]
        { ip := 0, tape := fun _ => 0, ptrA := 0, ptrB := 0,
          inp := [], out := [] } = some st2 ∧
        st2.tape (selPtrTok
          { ip := 0, tape := fun _ => 0, ptrA := 0, ptrB := 0,
            inp := [], out := [] } Ptr.B) = 255) :=
  ⟨cell_wraparound.1 ['+', 'A'] _ 'A' 0 (by decide) (by decide) (by decide) (by decide),
   cell_wraparound.2.1 ['-', 'B'] _ 'B' 0 (by decide) (by decide) (by decide) (by decide),
   cell_wraparound.2.2.1 [⟨InstrType.PLUS, Ptr.A, 0⟩] _ ⟨InstrType.PLUS, Ptr.A, 0⟩
     (by decide) (by decide) (by decide),
   cell_wraparound.2.2.2 [⟨InstrType.MINUS, Ptr.B, 0⟩] _ ⟨InstrType.MINUS, Ptr.B, 0⟩
     (by decide) (by decide) (by decide)⟩

/-- **C8.**  Executing `+A+B.A.B` (both cursors initially at cell 0 on a
zeroed tape) applies both increments to cell 0, which ends at value 2, and
both Output instructions emit the byte value 2. -/
theorem two_cursor_shared_cell :
    (execute ['+', 'A', '+', 'B', '.', 'A', '.', 'B'] [] 10).map
        (fun st => (st.out, st.tape 0)) =
      some ([2, 2], 2) := by
  decide

/-- **C5.**  In the direct interpreter, a LoopClose with a non-zero selected
cell moves the instruction cursor exactly onto the loop-open the backward
level-counting scan finds (the step back past it and the unconditional +2
advance cancel), and that landing character really is a `[`; with a zero
cell the cursor just advances to the next instruction. -/
theorem loop_close_backjump :
    ∀ (s : List Char) (st : MState) (sel : Char) (p : Int) (v : Nat),
      s.get? st.ip = some ']' → s.get? (st.ip + 1) = some sel →
      selPtr st sel = some p → readCell st.tape p = some v →
      (v ≠ 0 → ∀ q, scanBack s st.ip 1 = some q →
        execStep s st = some { st with ip := q } ∧ s.get? q = some '[') ∧
      (v = 0 → execStep s st = some { st with ip := st.ip + 2 }) := by
  intro s st sel p v hop hsel hp hread
  constructor
  · intro hv q hscan
    constructor
    · unfold execStep
      rw [hop, hsel]
      simp [hp, hread, hv, hscan]
    · exact scanBack_lands_open s st.ip 1 (by omega) q hscan
  · intro hv
    unfold execStep
    rw [hop, hsel]
    simp [hp, hread, hv]

/-- Witness for C5: the program `[A-A]A` with the cursor on its `]A` and
cell 0 holding 1; the scan lands on the `[` at instruction index 0. -/
theorem loop_close_backjump_witness :
    execStep ['[', 'A', '-', 'A', ']', 'A']
        { ip := 4, tape := fun q => if q = 0 then 1 else 0, ptrA := 0, ptrB := 0,
          inp := [], out := [] } =
      some { ip := 0, tape := fun q => if q = 0 then 1 else 0, ptrA := 0, ptrB := 0,
             inp := [], out := [] } ∧
    (['[', 'A', '-', 'A', ']', 'A'] : List Char).get? 0 = some '[' :=
  (loop_close_backjump ['[', 'A', '-', 'A', ']', 'A'] _ 'A' 0 1
      (by decide) (by decide) (by decide) (by decide)).1 (by decide) 0 (by decide)

/-- **C1, behaviour at the failing input.**  On the sanitized, balanced
program `>B+B+A+A[B-B.A-A]A.A` with empty console input, the direct
interpreter terminates with output bytes `[2, 1]`, while the tokenized
interpreter terminates with output bytes `[2, 1, 0]`: after a taken backward
jump the direct interpreter re-executes the matching LoopOpen's test, but in
`execute_tokens` the `for`-loop increment skips that token, so the loop body
runs once more.  The two interpreters are not output-equivalent. -/
theorem direct_vs_tokens_divergence :
    (execute
        ['>', 'B', '+', 'B', '+', 'A', '+', 'A', '[', 'B', '-', 'B', '.', 'A',
         '-', 'A', ']', 'A', '.', 'A'] [] 30).map (fun st => st.out) =
      some [2, 1] ∧
    ((tokenize
        ['>', 'B', '+', 'B', '+', 'A', '+', 'A', '[', 'B', '-', 'B', '.', 'A',
         '-', 'A', ']', 'A', '.', 'A']).bind
      (fun tks => execute_tokens tks [] 30)).map (fun st => st.out) =
      some [2, 1, 0] :=
  ⟨by decide, by decide⟩

/-!  ## Tokenizer properties  -/

lemma modifyJump_length : ∀ (l : List Instr) (i d : Nat),
    (modifyJump l i d).length = l.length := by
  intro l
  induction l with
  | nil => intro i d; rfl
  | cons x xs ih =>
    intro i d
    cases i with
    | zero => rfl
    | succ j => simp [modifyJump, ih j d]

lemma modifyJump_get_ne : ∀ (l : List Instr) (i d j : Nat), j ≠ i →
    (modifyJump l i d).get? j = l.get? j := by
  intro l
  induction l with
  | nil => intro i d j _; rfl
  | cons x xs ih =>
    intro i d j h
    cases i with
    | zero =>
      cases j with
      | zero => exact absurd rfl h
      | succ k => rfl
    | succ i2 =>
      cases j with
      | zero => rfl
      | succ k =>
        show (modifyJump xs i2 d).get? k = xs.get? k
        exact ih i2 d k (by omega)

lemma modifyJump_get_eq : ∀ (l : List Instr) (i d : Nat),
    (modifyJump l i d).get? i = (l.get? i).map (fun x => { x with jump := d }) := by
  intro l
  induction l with
  | nil => intro i d; rfl
  | cons x xs ih =>
    intro i d
    cases i with
    | zero => rfl
    | succ i2 =>
      show (modifyJump xs i2 d).get? i2 = (xs.get? i2).map (fun x => { x with jump := d })
      exact ih i2 d

lemma out2_length (out : List Instr) (el : Instr) (idx pos d : Nat) :
    (modifyJump (modifyJump (out ++ [el]) idx d) pos d).length = out.length + 1 := by
  rw [modifyJump_length, modifyJump_length]
  simp

lemma out2_get_low (out : List Instr) (el : Instr) (idx pos d p : Nat)
    (hidx : idx = out.length) (hp : p < out.length) (hppos : p ≠ pos) :
    (modifyJump (modifyJump (out ++ [el]) idx d) pos d).get? p = out.get? p := by
  rw [modifyJump_get_ne _ pos d p hppos, modifyJump_get_ne _ idx d p (by omega),
    List.get?_append hp]

lemma out2_get_pos (out : List Instr) (el : Instr) (idx pos d : Nat)
    (hidx : idx = out.length) (hpos : pos < out.length) :
    (modifyJump (modifyJump (out ++ [el]) idx d) pos d).get? pos =
      (out.get? pos).map (fun x => { x with jump := d }) := by
  rw [modifyJump_get_eq, modifyJump_get_ne _ idx d pos (by omega), List.get?_append hpos]

lemma out2_get_idx (out : List Instr) (el : Instr) (idx pos d : Nat)
    (hidx : idx = out.length) (hne : pos ≠ idx) :
    (modifyJump (modifyJump (out ++ [el]) idx d) pos d).get? idx =
      some { el with jump := d } := by
  rw [modifyJump_get_ne _ pos d idx (fun h => hne h.symm), modifyJump_get_eq, hidx,
    List.get?_concat_length]
  rfl

/-- The invariant holds at the start of tokenization. -/
lemma TokInv_init : TokInv 0 [] [] [] := by
  refine ⟨rfl, ?_, List.Pairwise.nil, ?_, ?_, ?_, ?_⟩
  · intro p hp; exact absurd hp (by simp)
  · intro q hq; exact absurd hq (by simp)
  · intro p hp q hq; exact absurd hq (by simp)
  · intro p hpo; obtain ⟨ins, hins, _⟩ := hpo; exact absurd hins (by simp)
  · intro p hpc; obtain ⟨ins, hins, _⟩ := hpc; exact absurd hins (by simp)

/-- The invariant is preserved by a loop-open step: push the current index and
append an open token with jump 0. -/
lemma TokInv_push (idx : Nat) (stack : List Nat) (out : List Instr)
    (acc : List (Nat × Nat)) (pr : Ptr) (hInv : TokInv idx stack out acc) :
    TokInv (idx + 1) (idx :: stack) (out ++ [⟨InstrType.LOOP_OPEN, pr, 0⟩]) acc := by
  obtain ⟨h1, h2, h3, h4, h5, h6, h7⟩ := hInv
  refine ⟨by simp [h1], ?_, ?_, ?_, ?_, ?_, ?_⟩
  · intro p hp
    rcases List.mem_cons.mp hp with rfl | hp2
    · refine ⟨Nat.lt_succ_self p, ⟨InstrType.LOOP_OPEN, pr, 0⟩, ?_, rfl⟩
      rw [← h1]
      exact List.get?_concat_length out _
    · obtain ⟨hlt, ins, hins, hty⟩ := h2 p hp2
      exact ⟨Nat.lt_succ_of_lt hlt, ins,
        by rw [List.get?_append (by rw [h1]; exact hlt)]; exact hins, hty⟩
  · exact List.pairwise_cons.mpr ⟨fun b hb => (h2 b hb).1, h3⟩
  · intro q hq
    obtain ⟨hq1, hq2, ⟨insO, hO, htyO, hjO⟩, ⟨insC, hC, htyC, hjC⟩⟩ := h4 q hq
    refine ⟨hq1, Nat.lt_succ_of_lt hq2,
      ⟨insO, ?_, htyO, hjO⟩, ⟨insC, ?_, htyC, hjC⟩⟩
    · rw [List.get?_append (by rw [h1]; omega)]; exact hO
    · rw [List.get?_append (by rw [h1]; omega)]; exact hC
  · intro p hp q hq
    rcases List.mem_cons.mp hp with rfl | hp2
    · obtain ⟨hq1, hq2, _, _⟩ := h4 q hq
      exact ⟨by omega, by omega⟩
    · exact h5 p hp2 q hq
  · intro p hpo
    obtain ⟨ins, hins, hty⟩ := hpo
    have hplen : p < out.length + 1 := by simpa using (List.get?_eq_some.mp hins).1
    by_cases hpe : p = idx
    · exact Or.inl (by rw [hpe]; exact List.mem_cons_self idx stack)
    · have hplt : p < out.length := by omega
      have hins2 : out.get? p = some ins := by
        rw [List.get?_append hplt] at hins; exact hins
      rcases h6 p ⟨ins, hins2, hty⟩ with hmem | hm
      · exact Or.inl (List.mem_cons_of_mem _ hmem)
      · exact Or.inr hm
  · intro p hpc
    obtain ⟨ins, hins, hty⟩ := hpc
    have hplen : p < out.length + 1 := by simpa using (List.get?_eq_some.mp hins).1
    by_cases hpe : p = idx
    · exfalso
      have hgl := List.get?_concat_length out (⟨InstrType.LOOP_OPEN, pr, 0⟩ : Instr)
      rw [h1, ← hpe] at hgl
      rw [hgl] at hins
      obtain rfl : (⟨InstrType.LOOP_OPEN, pr, 0⟩ : Instr) = ins := by
        simpa using hins
      simp at hty
    · have hplt : p < out.length := by omega
      have hins2 : out.get? p = some ins := by
        rw [List.get?_append hplt] at hins; exact hins
      exact h7 p ⟨ins, hins2, hty⟩

/-- The invariant is preserved by a non-loop step: append a token whose kind
is neither loop-open nor loop-close, leaving stack and matched pairs alone. -/
lemma TokInv_other (idx : Nat) (stack : List Nat) (out : List Instr)
    (acc : List (Nat × Nat)) (t : InstrType) (pr : Ptr)
    (hto : t ≠ InstrType.LOOP_OPEN) (htc : t ≠ InstrType.LOOP_CLOSE)
    (hInv : TokInv idx stack out acc) :
    TokInv (idx + 1) stack (out ++ [⟨t, pr, 0⟩]) acc := by
  obtain ⟨h1, h2, h3, h4, h5, h6, h7⟩ := hInv
  refine ⟨by simp [h1], ?_, h3, ?_, h5, ?_, ?_⟩
  · intro p hp
    obtain ⟨hlt, ins, hins, hty⟩ := h2 p hp
    exact ⟨Nat.lt_succ_of_lt hlt, ins,
      by rw [List.get?_append (by rw [h1]; exact hlt)]; exact hins, hty⟩
  · intro q hq
    obtain ⟨hq1, hq2, ⟨insO, hO, htyO, hjO⟩, ⟨insC, hC, htyC, hjC⟩⟩ := h4 q hq
    refine ⟨hq1, Nat.lt_succ_of_lt hq2,
      ⟨insO, ?_, htyO, hjO⟩, ⟨insC, ?_, htyC, hjC⟩⟩
    · rw [List.get?_append (by rw [h1]; omega)]; exact hO
    · rw [List.get?_append (by rw [h1]; omega)]; exact hC
  · intro p hpo
    obtain ⟨ins, hins, hty⟩ := hpo
    have hplen : p < out.length + 1 := by simpa using (List.get?_eq_some.mp hins).1
    by_cases hpe : p = idx
    · exfalso
      have hgl := List.get?_concat_length out (⟨t, pr, 0⟩ : Instr)
      rw [h1, ← hpe] at hgl
      rw [hgl] at hins
      obtain rfl : (⟨t, pr, 0⟩ : Instr) = ins := by simpa using hins
      exact hto hty
    · have hplt : p < out.length := by omega
      have hins2 : out.get? p = some ins := by
        rw [List.get?_append hplt] at hins; exact hins
      exact h6 p ⟨ins, hins2, hty⟩
  · intro p hpc
    obtain ⟨ins, hins, hty⟩ := hpc
    have hplen : p < out.length + 1 := by simpa using (List.get?_eq_some.mp hins).1
    by_cases hpe : p = idx
    · exfalso
      have hgl := List.get?_concat_length out (⟨t, pr, 0⟩ : Instr)
      rw [h1, ← hpe] at hgl
      rw [hgl] at hins
      obtain rfl : (⟨t, pr, 0⟩ : Instr) = ins := by simpa using hins
      exact htc hty
    · have hplt : p < out.length := by omega
      have hins2 : out.get? p = some ins := by
        rw [List.get?_append hplt] at hins; exact hins
      exact h7 p ⟨ins, hins2, hty⟩

/-- The invariant is preserved by a loop-close step: pop the matching open
index `pos`, append a close token, record distance `idx - pos` on both
tokens, and add the pair `(pos, idx)` to the matched pairs. -/
lemma TokInv_pop (idx pos : Nat) (stack2 : List Nat) (out : List Instr)
    (acc : List (Nat × Nat)) (pr : Ptr)
    (hInv : TokInv idx (pos :: stack2) out acc) :
    TokInv (idx + 1) stack2
      (modifyJump (modifyJump (out ++ [⟨InstrType.LOOP_CLOSE, pr, 0⟩]) idx (idx - pos))
        pos (idx - pos))
      (acc ++ [(pos, idx)]) := by
  obtain ⟨h1, h2, h3, h4, h5, h6, h7⟩ := hInv
  obtain ⟨hposlt, insP, hinsP, htyP⟩ := h2 pos (List.mem_cons_self pos stack2)
  have hidx : idx = out.length := h1.symm
  have hstack2lt : ∀ p ∈ stack2, p < pos :=
    fun p hp => (List.pairwise_cons.mp h3).1 p hp
  refine ⟨?_, ?_, (List.pairwise_cons.mp h3).2, ?_, ?_, ?_, ?_⟩
  · rw [out2_length, h1]
  · intro p hp
    have hppos : p < pos := hstack2lt p hp
    obtain ⟨hlt, ins, hins, hty⟩ := h2 p (List.mem_cons_of_mem _ hp)
    refine ⟨Nat.lt_succ_of_lt hlt, ins, ?_, hty⟩
    rw [out2_get_low out _ idx pos _ p hidx (by omega) (by omega)]
    exact hins
  · intro q hq
    rcases List.mem_append.mp hq with hq2 | hq2
    · obtain ⟨hq1, hqlt, ⟨insO, hO, htyO, hjO⟩, ⟨insC, hC, htyC, hjC⟩⟩ := h4 q hq2
      have hd1 := h5 pos (List.mem_cons_self pos stack2) q hq2
      refine ⟨hq1, Nat.lt_succ_of_lt hqlt, ⟨insO, ?_, htyO, hjO⟩, ⟨insC, ?_, htyC, hjC⟩⟩
      · rw [out2_get_low out _ idx pos _ q.1 hidx (by omega) ?_]
        · exact hO
        · intro he; exact hd1.1 he.symm
      · rw [out2_get_low out _ idx pos _ q.2 hidx (by omega) ?_]
        · exact hC
        · intro he; exact hd1.2 he.symm
    · have hq3 : q = (pos, idx) := by simpa using hq2
      subst hq3
      refine ⟨hposlt, Nat.lt_succ_self idx, ?_, ?_⟩
      · refine ⟨{ insP with jump := idx - pos }, ?_, htyP, rfl⟩
        rw [out2_get_pos out _ idx pos _ hidx (by omega), hinsP]
        rfl
      · refine ⟨⟨InstrType.LOOP_CLOSE, pr, idx - pos⟩, ?_, rfl, rfl⟩
        rw [out2_get_idx out _ idx pos _ hidx (by omega)]
  · intro p hp q hq
    have hppos : p < pos := hstack2lt p hp
    rcases List.mem_append.mp hq with hq2 | hq2
    · exact h5 p (List.mem_cons_of_mem _ hp) q hq2
    · have hq3 : q = (pos, idx) := by simpa using hq2
      subst hq3
      have hplt : p < idx := (h2 p (List.mem_cons_of_mem _ hp)).1
      exact ⟨by omega, by omega⟩
  · intro p hpo
    obtain ⟨ins, hins, hty⟩ := hpo
    have hplen : p < out.length + 1 := by
      have := (List.get?_eq_some.mp hins).1
      rw [out2_length] at this
      exact this
    by_cases hpe : p = idx
    · exfalso
      rw [hpe, out2_get_idx out _ idx pos _ hidx (by omega)] at hins
      obtain rfl : (⟨InstrType.LOOP_CLOSE, pr, idx - pos⟩ : Instr) = ins := by
        simpa using hins
      have hty2 : InstrType.LOOP_CLOSE = InstrType.LOOP_OPEN := hty
      exact absurd hty2 (by decide)
    · by_cases hpp : p = pos
      · exact Or.inr ⟨idx, by rw [hpp]; exact List.mem_append_right _ (by simp)⟩
      · have hplt : p < out.length := by omega
        have hins2 : out.get? p = some ins := by
          rw [out2_get_low out _ idx pos _ p hidx hplt hpp] at hins
          exact hins
        rcases h6 p ⟨ins, hins2, hty⟩ with hmem | hm
        · rcases List.mem_cons.mp hmem with rfl | hmem2
          · exact absurd rfl hpp
          · exact Or.inl hmem2
        · obtain ⟨j, hj⟩ := hm
          exact Or.inr ⟨j, List.mem_append_left _ hj⟩
  · intro p hpc
    obtain ⟨ins, hins, hty⟩ := hpc
    have hplen : p < out.length + 1 := by
      have := (List.get?_eq_some.mp hins).1
      rw [out2_length] at this
      exact this
    by_cases hpe : p = idx
    · exact ⟨pos, by rw [hpe]; exact List.mem_append_right _ (by simp)⟩
    · by_cases hpp : p = pos
      · exfalso
        rw [hpp, out2_get_pos out _ idx pos _ hidx (by omega), hinsP] at hins
        obtain rfl : ({ insP with jump := idx - pos } : Instr) = ins := by
          simpa using hins
        have hty2 : insP.type = InstrType.LOOP_CLOSE := hty
        rw [htyP] at hty2
        exact absurd hty2 (by decide)
      · have hplt : p < out.length := by omega
        have hins2 : out.get? p = some ins := by
          rw [out2_get_low out _ idx pos _ p hidx hplt hpp] at hins
          exact hins
        obtain ⟨i, hi⟩ := h7 p ⟨ins, hins2, hty⟩
        exact ⟨i, List.mem_append_left _ hi⟩

/-- Joint induction relating a run of `tokenizeAux` and of the reference
matcher `pairsAux` from any invariant-satisfying intermediate state: both
runs succeed or fail together with equal final stacks, and at the end the
invariant holds of the final tokens, final stack and matched pairs. -/
lemma tokPairs_inv : ∀ (n : Nat) (s : List Char), s.length ≤ n →
    ∀ (idx : Nat) (stack : List Nat) (out : List Instr) (acc : List (Nat × Nat))
      (outF : List Instr) (stF : List Nat) (psF : List (Nat × Nat)) (stPF : List Nat),
      TokInv idx stack out acc →
      tokenizeAux s idx stack out = some (outF, stF) →
      pairsAux s idx stack acc = some (psF, stPF) →
      stF = stPF ∧ TokInv outF.length stF outF psF := by
  intro n
  induction n with
  | zero =>
    intro s hs idx stack out acc outF stF psF stPF hInv htok hpairs
    have hs0 : s = [] := List.length_eq_zero.mp (Nat.le_zero.mp hs)
    subst hs0
    simp only [tokenizeAux, Option.some.injEq, Prod.mk.injEq] at htok
    simp only [pairsAux, Option.some.injEq, Prod.mk.injEq] at hpairs
    obtain ⟨rfl, rfl⟩ := htok
    obtain ⟨rfl, rfl⟩ := hpairs
    refine ⟨rfl, ?_⟩
    rw [hInv.1]
    exact hInv
  | succ n ih =>
    intro s hs idx stack out acc outF stF psF stPF hInv htok hpairs
    rcases s with _ | ⟨c1, s2⟩
    · simp only [tokenizeAux, Option.some.injEq, Prod.mk.injEq] at htok
      simp only [pairsAux, Option.some.injEq, Prod.mk.injEq] at hpairs
      obtain ⟨rfl, rfl⟩ := htok
      obtain ⟨rfl, rfl⟩ := hpairs
      refine ⟨rfl, ?_⟩
      rw [hInv.1]
      exact hInv
    rcases s2 with _ | ⟨c2, rest⟩
    · simp only [tokenizeAux] at htok
      exact absurd htok (by simp)
    have hs2 : rest.length ≤ n := by
      simp only [List.length_cons] at hs
      omega
    simp only [tokenizeAux] at htok
    simp only [pairsAux] at hpairs
    cases hct : charToType c1 with
    | none => simp [hct] at htok
    | some t =>
      cases hcp : charToPtr c2 with
      | none => simp [hct, hcp] at htok
      | some pr =>
        simp only [hct, hcp] at htok hpairs
        by_cases hop : t = InstrType.LOOP_OPEN
        · subst hop
          rw [if_pos rfl] at htok hpairs
          exact ih rest hs2 (idx + 1) (idx :: stack) _ acc outF stF psF stPF
            (TokInv_push idx stack out acc pr hInv) htok hpairs
        · by_cases hcl : t = InstrType.LOOP_CLOSE
          · subst hcl
            rw [if_neg hop, if_pos rfl] at htok hpairs
            cases stack with
            | nil => simp at htok
            | cons pos stack2 =>
              simp only [] at htok hpairs
              exact ih rest hs2 (idx + 1) stack2 _ (acc ++ [(pos, idx)]) outF stF psF stPF
                (TokInv_pop idx pos stack2 out acc pr hInv) htok hpairs
          · rw [if_neg hop, if_neg hcl] at htok hpairs
            exact ih rest hs2 (idx + 1) stack _ acc outF stF psF stPF
              (TokInv_other idx stack out acc t pr hop hcl hInv) htok hpairs

/-- **C4.**  For a properly nested, balanced instruction-pair stream (one the
reference stack matcher completes on with an empty final stack), `tokenize`
records on each matched pair of LoopOpen/LoopClose tokens the same jump
distance, equal to the closing instruction index minus the opening
instruction index, in instruction units. -/
theorem tokenize_jump_symmetry :
    ∀ (s : List Char) (ps : List (Nat × Nat)) (outF : List Instr),
      pairsAux s 0 [] [] = some (ps, []) →
      tokenize s = some outF →
      ∀ i j, (i, j) ∈ ps →
        i < j ∧ openJ outF i (j - i) ∧ closeJ outF j (j - i) := by
  intro s ps outF hpairs htok i j hmem
  rw [tokenize] at htok
  obtain ⟨⟨outF2, stT⟩, htok2, hfst⟩ := Option.map_eq_some'.mp htok
  obtain rfl : outF2 = outF := hfst
  obtain ⟨hst, hinv⟩ := tokPairs_inv s.length s le_rfl 0 [] [] [] outF2 stT ps []
    TokInv_init htok2 hpairs
  obtain ⟨h1, h2, h3, h4, h5, h6, h7⟩ := hinv
  obtain ⟨hlt, hltF, hO, hC⟩ := h4 (i, j) hmem
  exact ⟨hlt, hO, hC⟩

/-- Witness for C4 at the nested program `[A[B]A]B`: the outer pair (0, 3)
carries distance 3 on both tokens. -/
theorem tokenize_jump_symmetry_witness :
    0 < 3 ∧
    openJ [⟨InstrType.LOOP_OPEN, Ptr.A, 3⟩, ⟨InstrType.LOOP_OPEN, Ptr.B, 1⟩,
      ⟨InstrType.LOOP_CLOSE, Ptr.A, 1⟩, ⟨InstrType.LOOP_CLOSE, Ptr.B, 3⟩] 0 (3 - 0) ∧
    closeJ [⟨InstrType.LOOP_OPEN, Ptr.A, 3⟩, ⟨InstrType.LOOP_OPEN, Ptr.B, 1⟩,
      ⟨InstrType.LOOP_CLOSE, Ptr.A, 1⟩, ⟨InstrType.LOOP_CLOSE, Ptr.B, 3⟩] 3 (3 - 0) :=
  tokenize_jump_symmetry ['[', 'A', '[', 'B', ']', 'A', ']', 'B'] [(1, 2), (0, 3)]
    [⟨InstrType.LOOP_OPEN, Ptr.A, 3⟩, ⟨InstrType.LOOP_OPEN, Ptr.B, 1⟩,
      ⟨InstrType.LOOP_CLOSE, Ptr.A, 1⟩, ⟨InstrType.LOOP_CLOSE, Ptr.B, 3⟩]
    (by decide) (by decide) 0 3 (by decide)

/-- **C6.**  On a properly nested, balanced input, every LoopOpen and
LoopClose token produced by `tokenize` carries a jump distance of at least 1,
never the reserved value 0 — so the taken-branch assertion of
`execute_tokens` cannot fire on such programs. -/
theorem tokenize_jump_nonzero :
    ∀ (s : List Char) (ps : List (Nat × Nat)) (outF : List Instr),
      pairsAux s 0 [] [] = some (ps, []) →
      tokenize s = some outF →
      ∀ k ins, outF.get? k = some ins →
        ins.type = InstrType.LOOP_OPEN ∨ ins.type = InstrType.LOOP_CLOSE →
        1 ≤ ins.jump := by
  intro s ps outF hpairs htok k ins hk hty
  rw [tokenize] at htok
  obtain ⟨⟨outF2, stT⟩, htok2, hfst⟩ := Option.map_eq_some'.mp htok
  obtain rfl : outF2 = outF := hfst
  obtain ⟨hst, hinv⟩ := tokPairs_inv s.length s le_rfl 0 [] [] [] outF2 stT ps []
    TokInv_init htok2 hpairs
  obtain ⟨h1, h2, h3, h4, h5, h6, h7⟩ := hinv
  subst hst
  rcases hty with hty | hty
  · rcases h6 k ⟨ins, hk, hty⟩ with hmem | ⟨j, hj⟩
    · exact absurd hmem (by simp)
    · obtain ⟨hlt, hltF, ⟨insO, hO, htyO, hjO⟩, hCl⟩ := h4 (k, j) hj
      rw [hk] at hO
      obtain rfl : ins = insO := Option.some.inj hO
      have hlt2 : k < j := hlt
      have hj2 : ins.jump = j - k := hjO
      omega
  · obtain ⟨i, hi⟩ := h7 k ⟨ins, hk, hty⟩
    obtain ⟨hlt, hltF, hOp, ⟨insC, hC, htyC, hjC⟩⟩ := h4 (i, k) hi
    rw [hk] at hC
    obtain rfl : ins = insC := Option.some.inj hC
    have hlt2 : i < k := hlt
    have hj2 : ins.jump = k - i := hjC
    omega

/-- Witness for C6 at the nested program `[A[B]A]B`: the open token at index
0 carries jump 3 ≥ 1. -/
theorem tokenize_jump_nonzero_witness :
    1 ≤ (⟨InstrType.LOOP_OPEN, Ptr.A, 3⟩ : Instr).jump :=
  tokenize_jump_nonzero ['[', 'A', '[', 'B', ']', 'A', ']', 'B'] [(1, 2), (0, 3)]
    [⟨InstrType.LOOP_OPEN, Ptr.A, 3⟩, ⟨InstrType.LOOP_OPEN, Ptr.B, 1⟩,
      ⟨InstrType.LOOP_CLOSE, Ptr.A, 1⟩, ⟨InstrType.LOOP_CLOSE, Ptr.B, 3⟩]
    (by decide) (by decide) 0 ⟨InstrType.LOOP_OPEN, Ptr.A, 3⟩ (by decide) (Or.inl rfl)
